import Mathlib

/-!
Verification of the pymorphy3 parsing/inflection engine against its
specification.  The Python sources `pymorphy3/analyzer.py` and
`pymorphy3/opencorpora_dict/storage.py` are shallowly embedded below:
floating point scores and probabilities become exact rationals, byte files
become lists of naturals, raised exceptions become `Option`/`Except`
failure values, and the external collaborators that the engine only calls
through an interface (tag set, DAWG dictionaries, analyzer units) become
explicit parameters or small models built from their interface
descriptions.
-/

/-- Frames of a parse's methods stack: (unit name, paradigm id, form index).
The engine treats the stack as opaque data, so an enumerated unit reference
is replaced by the unit's name. -/
abbrev MethodFrame := String × ℕ × ℕ

/-- Modelled from the spec: `tagset.OpencorporaTag` (the tag class lives
outside the embedded sources).  A tag is a value object with a canonical
string form and a set of grammemes; only these two components are consumed
by the embedded engine code. -/
structure OpencorporaTag where
  str : String
  grammemes : Finset String
deriving DecidableEq

/-- Embedding of the `_Parse` named tuple of `analyzer.py`:
`(word, tag, normal_for, score, methods_stack)`, with the float score
modelled as a rational. -/
structure _Parse where
  word : String
  tag : OpencorporaTag
  normal_for : String
  score : ℚ
  methods_stack : List MethodFrame
deriving DecidableEq

/-- Embedding of `operator.itemgetter(3)` bound as `_score_getter`:
projects the score component of a parse. -/
def _score_getter (p : _Parse) : ℚ := p.score

/- ## storage.py : format version check (claim C5) -/

/-- Embedding of `CURRENT_FORMAT_VERSION = '2.4'` from `storage.py`,
as a character list so that the version-splitting logic is executable. -/
def CURRENT_FORMAT_VERSION : List Char := ['2', '.', '4']

/-- Embedding of Python's `str.split(sep)` for a one-character separator:
splits at every occurrence of the separator, keeping empty pieces, so the
result always has (number of separators + 1) pieces. -/
def pySplit (sep : Char) : List Char → List (List Char)
  | [] => [[]]
  | c :: cs =>
    let r := pySplit sep cs
    if c = sep then [] :: r
    else
      match r with
      | [] => [[c]]
      | piece :: ps => (c :: piece) :: ps

/-- Embedding of `_assert_format_is_compatible` from `storage.py`, acting on
the already-extracted `format_version` string.  A raised `ValueError` is an
`Except.error`; the tuple unpacking `major, minor = format_version.split('.')`
fails unless the split has exactly two pieces. -/
def _assert_format_is_compatible (format_version : List Char) : Except String Unit :=
  if '.' ∉ format_version then
    Except.error "Invalid format_version"
  else
    match pySplit '.' format_version, pySplit '.' CURRENT_FORMAT_VERSION with
    | [major, _minor], [curr_major, _curr_minor] =>
      if major ≠ curr_major then
        Except.error "the format is not supported"
      else
        Except.ok ()
    | _, _ => Except.error "values to unpack"

/- ## storage.py : binary paradigms file (claims C6, C8) -/

/-- Embedding of `struct.unpack("<H", f.read(2))`: reads one little-endian
unsigned 16-bit value from the byte stream, failing on a truncated stream. -/
def readU16 : List ℕ → Option (ℕ × List ℕ)
  | b0 :: b1 :: rest => some (b0 + 256 * b1, rest)
  | _ => none

/-- Embedding of `array.array("H").fromfile(f, n)`: reads `n` little-endian
unsigned 16-bit values, failing (`EOFError`) on a truncated stream. -/
def readU16s : ℕ → List ℕ → Option (List ℕ × List ℕ)
  | 0, bs => some ([], bs)
  | n + 1, bs => do
    let (v, bs1) ← readU16 bs
    let (vs, bs2) ← readU16s n bs1
    pure (v :: vs, bs2)

/-- Embedding of the record-reading loop of `_load_paradigms`: reads the
given number of records, each a u16 length followed by that many u16
values. -/
def loadParadigmsLoop : ℕ → List ℕ → Option (List (List ℕ))
  | 0, _ => some []
  | n + 1, bs => do
    let (paradigm_len, bs1) ← readU16 bs
    let (para, bs2) ← readU16s paradigm_len bs1
    let rest ← loadParadigmsLoop n bs2
    pure (para :: rest)

/-- Embedding of `_load_paradigms` from `storage.py`: u16 record count,
then that many records. -/
def _load_paradigms (bs : List ℕ) : Option (List (List ℕ)) := do
  let (paradigms_count, bs1) ← readU16 bs
  loadParadigmsLoop paradigms_count bs1

/-- Embedding of `struct.pack("<H", n)` as written by `save_compiled_dict`;
faithful for `n < 65536` (larger values make `struct.pack` raise, and all
uses below are guarded by that bound). -/
def encodeU16 (n : ℕ) : List ℕ := [n % 256, n / 256 % 256]

/-- Embedding of `para.tofile(f)` for an `array.array("H")`: each value as
a little-endian u16. -/
def encodeU16s : List ℕ → List ℕ
  | [] => []
  | v :: vs => encodeU16 v ++ encodeU16s vs

/-- Embedding of one record written by the paradigm loop of
`save_compiled_dict`: u16 length, then the values. -/
def encodeParadigm (para : List ℕ) : List ℕ := encodeU16 para.length ++ encodeU16s para

/-- Embedding of the `paradigms.array` writing block of `save_compiled_dict`
(`storage.py` lines 98-102): u16 paradigm count, then each record. -/
def save_paradigms : List (List ℕ) → List ℕ
  | ps => encodeU16 ps.length ++ (ps.map encodeParadigm).flatten

/- ## analyzer.py : probability estimator (claims C1, C7, C9) -/

/-- Modelled from the spec: `ConditionalProbDistDAWG` (the DAWG layer lives
outside the embedded sources) stores under key "word␉tag" a probability
scaled by 10^6 as an unsigned integer; an absent key yields 0.  The DAWG
content is modelled as the total function from (word, tag string) to the
stored integer, 0 standing for an absent key. -/
structure ConditionalProbDistDAWG where
  data : String → String → ℕ

/-- Modelled from the spec: `ConditionalProbDistDAWG.prob(word_lower, tag)`
returns the stored integer divided by 1,000,000 (so 0.0 for absent keys). -/
def ConditionalProbDistDAWG.prob (d : ConditionalProbDistDAWG)
    (word_lower : String) (tag : OpencorporaTag) : ℚ :=
  (d.data word_lower tag.str : ℚ) / 1000000

/-- Stable insertion of a later-arriving parse into a list already sorted by
descending score: the new parse goes after every element whose score is
greater than or equal to its own and before the first strictly smaller
one. -/
def insertDesc (p : _Parse) : List _Parse → List _Parse
  | [] => [p]
  | q :: qs => if q.score < p.score then p :: q :: qs else q :: insertDesc p qs

/-- Embedding of `sorted(..., key=_score_getter, reverse=True)`: Python's
sort is stable, and for a total key order every stable sort computes the
same list as this left fold of stable insertions. -/
def pySortDesc (l : List _Parse) : List _Parse :=
  l.foldl (fun acc p => insertDesc p acc) []

/-- Embedding of the `ProbabilityEstimator` state: the loaded
`p_t_given_w.intdawg` table. -/
structure ProbabilityEstimator where
  p_t_given_w : ConditionalProbDistDAWG

/-- Embedding of `ProbabilityEstimator.apply_to_parses`.  The
`ZeroDivisionError` raised by `k = 1.0 / sum(...)` when the original score
sum is zero is modelled as `none`. -/
def ProbabilityEstimator.apply_to_parses (e : ProbabilityEstimator)
    (_word word_lower : String) (parses : List _Parse) : Option (List _Parse) :=
  if parses.isEmpty then some []
  else
    let probs := parses.map fun p => e.p_t_given_w.prob word_lower p.tag
    if probs.sum = 0 then
      let s := (parses.map _score_getter).sum
      if s = 0 then none
      else
        let k := 1 / s
        some (parses.map fun p => { p with score := p.score * k })
    else
      some (pySortDesc ((parses.zip probs).map fun pq => { pq.1 with score := pq.2 }))

/- ## analyzer.py : the unit pipeline of MorphAnalyzer.parse (claims C2, C10) -/

/-- Interface of an analyzer unit as consumed by `MorphAnalyzer.parse`: its
`parse(word, word_lower, seen)` method.  The mutable `seen` set threaded
through the pipeline is modelled as a state value of an arbitrary type
`σ`, updated and returned alongside the produced parses. -/
structure PipeUnit (σ : Type) where
  parse : String → String → σ → List _Parse × σ

/-- Embedding of the unit loop of `MorphAnalyzer.parse`: run the units in
order, extending the cumulative result list, and break after a terminal
unit once the cumulative list is non-empty. -/
def runUnits {σ : Type} : List (PipeUnit σ × Bool) → String → String → List _Parse → σ → List _Parse
  | [], _, _, res, _ => res
  | (u, is_terminal) :: rest, word, word_lower, res, seen =>
    let pr := u.parse word word_lower seen
    let res2 := res ++ pr.1
    if is_terminal ∧ res2 ≠ [] then res2
    else runUnits rest word word_lower res2 pr.2

/-- The same unit loop with the terminal break disabled: the cumulative
parse list after running a list of units to exhaustion.  Used to state
which cumulative lists the real loop can observe. -/
def runAllUnits {σ : Type} : List (PipeUnit σ × Bool) → String → String → List _Parse → σ → List _Parse
  | [], _, _, res, _ => res
  | (u, _) :: rest, word, word_lower, res, seen =>
    let pr := u.parse word word_lower seen
    runAllUnits rest word word_lower (res ++ pr.1) pr.2

/-- Position (0-based) of the unit at which the loop of
`MorphAnalyzer.parse` breaks: the first terminal unit after which the
cumulative result list is non-empty, if any. -/
def haltIdx {σ : Type} : List (PipeUnit σ × Bool) → String → String → List _Parse → σ → Option ℕ
  | [], _, _, _, _ => none
  | (u, is_terminal) :: rest, word, word_lower, res, seen =>
    let pr := u.parse word word_lower seen
    let res2 := res ++ pr.1
    if is_terminal ∧ res2 ≠ [] then some 0
    else (haltIdx rest word word_lower res2 pr.2).map (· + 1)

/-- Embedding of `MorphAnalyzer.parse`: lowercase the word, run the unit
pipeline from an empty cumulative list and initial seen-state, then apply
the probability estimator when one is configured.  The result-type
rewrapping at the end of the Python method is the identity here. -/
def MorphAnalyzer.parse {σ : Type} (units : List (PipeUnit σ × Bool)) (seen0 : σ)
    (prob_estimator : Option ProbabilityEstimator) (word : String) : Option (List _Parse) :=
  let word_lower := word.toLower
  let res := runUnits units word word_lower [] seen0
  match prob_estimator with
  | none => some res
  | some e => e.apply_to_parses word word_lower res

/-- Embedding of the accumulation loop of `MorphAnalyzer.normal_forms`:
collect `p[2]` of each parse, skipping normal forms already seen. -/
def normalFormsLoop : List _Parse → List String → List String
  | [], _ => []
  | p :: ps, seen =>
    if p.normal_for ∈ seen then normalFormsLoop ps seen
    else p.normal_for :: normalFormsLoop ps (p.normal_for :: seen)

/-- Embedding of `MorphAnalyzer.normal_forms`: the deduplicating loop over
`self.parse(word)`. -/
def MorphAnalyzer.normal_forms {σ : Type} (units : List (PipeUnit σ × Bool)) (seen0 : σ)
    (prob_estimator : Option ProbabilityEstimator) (word : String) : Option (List String) :=
  (MorphAnalyzer.parse units seen0 prob_estimator word).map fun ps => normalFormsLoop ps []

/-- Specification-side definition for C10, following the claim's words:
keep only the first occurrence of each value, in the order in which
distinct values first appear. -/
def firstDedup : List String → List String
  | [] => []
  | a :: l => a :: firstDedup (l.filter fun b => decide (b ≠ a))
termination_by l => l.length
decreasing_by simpa using Nat.lt_succ_of_le (List.length_filter_le _ _)

/- ## analyzer.py : inflection (claim C3) -/

/-- Embedding of `heapq.nlargest(1, xs, key=...)`: the singleton list
holding the first element attaining the maximal key, or `[]` when the
input is empty (`nlargest` is stable, so on ties the earlier element
wins). -/
def nlargest1 (key : _Parse → ℚ) : List _Parse → List _Parse
  | [] => []
  | x :: xs => [xs.foldl (fun b y => if key b < key y then y else b) x]

/-- The value of the Python local `required_grammemes` after the retry
branch of `MorphAnalyzer._inflect`: it is rebound to
`fix_rare_cases(required_grammemes)` exactly when the first filter pass
finds nothing.  `get_lexeme` (dispatching through the parse's methods
stack) and `fix_rare_cases` (a method of the external tag class) are
parameters. -/
def inflectReq (get_lexeme : _Parse → List _Parse)
    (fix_rare_cases : Finset String → Finset String)
    (form : _Parse) (required_grammemes : Finset String) : Finset String :=
  if (get_lexeme form).filter (fun f => decide (required_grammemes ⊆ f.tag.grammemes)) = [] then
    fix_rare_cases required_grammemes
  else required_grammemes

/-- The `possible_results` list of `MorphAnalyzer._inflect` after both
filter passes: lexeme forms whose grammeme set contains the (possibly
retried) required set. -/
def inflectSurvivors (get_lexeme : _Parse → List _Parse)
    (fix_rare_cases : Finset String → Finset String)
    (form : _Parse) (required_grammemes : Finset String) : List _Parse :=
  (get_lexeme form).filter fun f =>
    decide (inflectReq get_lexeme fix_rare_cases form required_grammemes ⊆ f.tag.grammemes)

/-- The `similarity` key of `MorphAnalyzer._inflect`:
`len(grammemes & tag.grammemes) - 0.1 * len(grammemes ^ tag.grammemes)`,
where `grammemes = form[1].updated_grammemes(required_grammemes)` is
computed from the rebound local `required_grammemes`.  The tag method
`updated_grammemes` is a parameter; the float literal `0.1` is the exact
rational 1/10. -/
def inflectSim (get_lexeme : _Parse → List _Parse)
    (fix_rare_cases : Finset String → Finset String)
    (updated_grammemes : OpencorporaTag → Finset String → Finset String)
    (form : _Parse) (required_grammemes : Finset String) (frm : _Parse) : ℚ :=
  let grammemes := updated_grammemes form.tag
    (inflectReq get_lexeme fix_rare_cases form required_grammemes)
  ((grammemes ∩ frm.tag.grammemes).card : ℚ) -
    (1 / 10) * ((((grammemes \ frm.tag.grammemes) ∪ (frm.tag.grammemes \ grammemes)).card : ℚ))

/-- Embedding of `MorphAnalyzer._inflect`: among the surviving lexeme forms,
`heapq.nlargest(1, possible_results, key=similarity)`. -/
def MorphAnalyzer._inflect (get_lexeme : _Parse → List _Parse)
    (fix_rare_cases : Finset String → Finset String)
    (updated_grammemes : OpencorporaTag → Finset String → Finset String)
    (form : _Parse) (required_grammemes : Finset String) : List _Parse :=
  nlargest1 (inflectSim get_lexeme fix_rare_cases updated_grammemes form required_grammemes)
    (inflectSurvivors get_lexeme fix_rare_cases form required_grammemes)

/-- Embedding of `Parse.inflect`: `None if not res else res[0]` over the
result of `MorphAnalyzer._inflect`. -/
def Parse.inflect (get_lexeme : _Parse → List _Parse)
    (fix_rare_cases : Finset String → Finset String)
    (updated_grammemes : OpencorporaTag → Finset String → Finset String)
    (form : _Parse) (required_grammemes : Finset String) : Option _Parse :=
  match MorphAnalyzer._inflect get_lexeme fix_rare_cases updated_grammemes
    form required_grammemes with
  | [] => none
  | r :: _ => some r

/- ## analyzer.py : word_is_known (claim C4) -/

/-- Modelled from the spec: the per-character alternatives induced by a
compiled substitution map — the character itself plus every replacement the
map assigns to it. -/
def charAlts (replaces : List (Char × Char)) (c : Char) : List Char :=
  c :: (replaces.filter fun pq => decide (pq.1 = c)).map Prod.snd

/-- Modelled from the spec: the `similar_items` key enumeration of the DAWG
layer — all character lists reachable from the key by applying zero or more
substitutions from the map, independently at each position. -/
def substVariants (replaces : List (Char × Char)) : List Char → List (List Char)
  | [] => [[]]
  | c :: cs =>
    (charAlts replaces c).flatMap fun a => (substVariants replaces cs).map fun v => a :: v

/-- Modelled from the spec: `Dictionary.word_is_known(word,
substitutes_compiled)` (the `Dictionary` wrapper lives outside the embedded
sources) — with `None` substitutes, exact membership of the word in the
words DAWG; otherwise membership of some key reachable under the
substitutions.  The words DAWG key set is modelled as a list of strings. -/
def Dictionary.word_is_known (words : List String)
    (substitutes_compiled : Option (List (Char × Char))) (word : String) : Bool :=
  match substitutes_compiled with
  | none => words.contains word
  | some replaces =>
    (substVariants replaces word.data).any fun v => words.contains (String.mk v)

/-- Embedding of `MorphAnalyzer.word_is_known` from `analyzer.py`:
lowercases the word and queries the dictionary, passing the compiled
substitutions exactly when `strict` is false. -/
def MorphAnalyzer.word_is_known (words : List String)
    (char_substitutes : List (Char × Char)) (word : String) (strict : Bool) : Bool :=
  Dictionary.word_is_known words
    (if strict then none else some char_substitutes) word.toLower

/- ## concrete instances used by counterexamples and witnesses -/

/-- A probability table with every key absent. -/
def zeroEstimator : ProbabilityEstimator := ⟨⟨fun _ _ => 0⟩⟩

/-- A probability table storing probability 1 under every key. -/
def fullProbEstimator : ProbabilityEstimator := ⟨⟨fun _ _ => 1000000⟩⟩

/-- A concrete tag. -/
def nounTag : OpencorporaTag := ⟨"NOUN", {"NOUN"}⟩

/-- A concrete parse with score 0. -/
def zeroScoreParse : _Parse := ⟨"a", nounTag, "a", 0, [("DictionaryAnalyzer", 0, 0)]⟩

/-- A concrete parse with score 1. -/
def oneScoreParse : _Parse := ⟨"a", nounTag, "a", 1, [("DictionaryAnalyzer", 0, 0)]⟩

/-- A concrete parse with score 2. -/
def twoScoreParse : _Parse := ⟨"a", nounTag, "a", 2, [("DictionaryAnalyzer", 0, 1)]⟩

/-- A concrete unit producing no parses. -/
def silentUnit : PipeUnit Unit := ⟨fun _ _ s => ([], s)⟩

/-- A concrete unit producing one parse. -/
def oneParseUnit : PipeUnit Unit := ⟨fun _ _ s => ([oneScoreParse], s)⟩

/-- A concrete pipeline: a terminal unit that yields nothing, then a
terminal unit that yields one parse, then a further terminal unit. -/
def smallPipeline : List (PipeUnit Unit × Bool) :=
  [(silentUnit, true), (oneParseUnit, true), (silentUnit, true)]

/-- Specification-side predicate for C3: `x` is the first element of `l`
attaining the maximal key (every earlier element has a strictly smaller
key, and no element has a larger one). -/
def IsFirstArgmax (key : _Parse → ℚ) (l : List _Parse) (x : _Parse) : Prop :=
  ∃ pre post, l = pre ++ x :: post ∧ (∀ y ∈ pre, key y < key x) ∧ ∀ y ∈ l, key y ≤ key x

/-- A concrete lexeme form whose tag carries grammemes {"a"}. -/
def lexForm1 : _Parse := ⟨"w1", ⟨"T1", {"a"}⟩, "n1", 1, []⟩

/-- A concrete lexeme form whose tag carries grammemes {"b"}. -/
def lexForm2 : _Parse := ⟨"w2", ⟨"T2", {"b"}⟩, "n2", 1, []⟩

/-- A concrete lexeme enumeration returning both forms. -/
def cLex : _Parse → List _Parse := fun _ => [lexForm1, lexForm2]

/-- A concrete `fix_rare_cases` collapsing every requirement to the empty
set. -/
def cFix : Finset String → Finset String := fun _ => ∅

/-- A concrete `updated_grammemes` that distinguishes the original
requirement from its fixed variant. -/
def cUpd : OpencorporaTag → Finset String → Finset String := fun _ req =>
  if req = ∅ then {"b"} else {"a"}

theorem readU16_encodeU16 (n : ℕ) (h : n < 65536) (bs : List ℕ) :
    readU16 (encodeU16 n ++ bs) = some (n, bs) := by
  have h2 : n / 256 < 256 := Nat.div_lt_of_lt_mul h
  simp [readU16, encodeU16, Nat.mod_eq_of_lt h2, Nat.mod_add_div]

theorem readU16s_encodeU16s (l : List ℕ) (h : ∀ v ∈ l, v < 65536) (bs : List ℕ) :
    readU16s l.length (encodeU16s l ++ bs) = some (l, bs) := by
  induction l with
  | nil => simp [readU16s, encodeU16s]
  | cons v vs ih =>
    have hv : v < 65536 := h v (by simp)
    have hvs : ∀ x ∈ vs, x < 65536 := fun x hx => h x (by simp [hx])
    simp [encodeU16s, readU16s, List.append_assoc, readU16_encodeU16 v hv, ih hvs]

theorem loadParadigmsLoop_encode (ps : List (List ℕ))
    (hl : ∀ p ∈ ps, p.length < 65536) (hv : ∀ p ∈ ps, ∀ v ∈ p, v < 65536)
    (bs : List ℕ) :
    loadParadigmsLoop ps.length ((ps.map encodeParadigm).flatten ++ bs) = some ps := by
  induction ps with
  | nil => simp [loadParadigmsLoop]
  | cons p ps ih =>
    have hp : p.length < 65536 := hl p (by simp)
    have hpv : ∀ v ∈ p, v < 65536 := hv p (by simp)
    have hl2 : ∀ q ∈ ps, q.length < 65536 := fun q hq => hl q (by simp [hq])
    have hv2 : ∀ q ∈ ps, ∀ v ∈ q, v < 65536 := fun q hq => hv q (by simp [hq])
    simp [loadParadigmsLoop, encodeParadigm, List.append_assoc,
      readU16_encodeU16 p.length hp, readU16s_encodeU16s p hpv, ih hl2 hv2]

theorem save_paradigms_roundtrip_aux (ps : List (List ℕ))
    (hc : ps.length < 65536) (hl : ∀ p ∈ ps, p.length < 65536)
    (hv : ∀ p ∈ ps, ∀ v ∈ p, v < 65536) :
    _load_paradigms (save_paradigms ps) = some ps := by
  have hloop := loadParadigmsLoop_encode ps hl hv []
  rw [List.append_nil] at hloop
  simp [_load_paradigms, save_paradigms, readU16_encodeU16 ps.length hc, hloop]

/-- C8: writing the paradigms block of `save_compiled_dict` and reading it
back with `_load_paradigms` is the identity on every list of at most 65535
records of u16 values, each record of length at most 65535. -/
theorem paradigms_save_load_roundtrip (ps : List (List ℕ))
    (hc : ps.length ≤ 65535) (hl : ∀ p ∈ ps, p.length ≤ 65535)
    (hv : ∀ p ∈ ps, ∀ v ∈ p, v ≤ 65535) :
    _load_paradigms (save_paradigms ps) = some ps :=
  save_paradigms_roundtrip_aux ps (by omega)
    (fun p hp => by have := hl p hp; omega)
    (fun p hp v hvp => by have := hv p hp v hvp; omega)

/-- Closed witness for C8's round-trip theorem at a concrete paradigm list. -/
theorem paradigms_save_load_roundtrip_witness :
    (([[1, 2, 3], [4, 5, 6]] : List (List ℕ)).length ≤ 65535 ∧
      (∀ p ∈ ([[1, 2, 3], [4, 5, 6]] : List (List ℕ)), p.length ≤ 65535) ∧
      (∀ p ∈ ([[1, 2, 3], [4, 5, 6]] : List (List ℕ)), ∀ v ∈ p, v ≤ 65535)) ∧
    _load_paradigms (save_paradigms [[1, 2, 3], [4, 5, 6]]) = some [[1, 2, 3], [4, 5, 6]] :=
  ⟨⟨by decide, by decide, by decide⟩,
    paradigms_save_load_roundtrip _ (by decide) (by decide) (by decide)⟩

/-- C6 counterexample: a paradigms file whose single record has length 1
(not divisible by 3) loads successfully, so no length-divisibility error is
raised. -/
theorem load_paradigms_accepts_non_multiple_of_three :
    _load_paradigms [1, 0, 1, 0, 5, 0] = some [[5]] ∧ ¬ (3 ∣ ([5] : List ℕ).length) := by
  decide

/-- C6 (amended): `_load_paradigms` performs no divisibility-by-3 check: a
well-formed file containing a single record of any u16 length, divisible by
3 or not, loads successfully and returns exactly that record.  Load errors
come only from truncated data. -/
theorem load_paradigms_single_record_any_length (para : List ℕ)
    (h1 : para.length < 65536) (h2 : ∀ v ∈ para, v < 65536)
    (_h3 : ¬ (3 ∣ para.length)) :
    _load_paradigms (save_paradigms [para]) = some [para] :=
  save_paradigms_roundtrip_aux [para] (by simp)
    (by simpa using h1) (by simpa using h2)

/-- Closed witness for C6's amended theorem at a length-2 record. -/
theorem load_paradigms_single_record_any_length_witness :
    (([5, 7] : List ℕ).length < 65536 ∧ (∀ v ∈ ([5, 7] : List ℕ), v < 65536) ∧
      ¬ (3 ∣ ([5, 7] : List ℕ).length)) ∧
    _load_paradigms (save_paradigms [[5, 7]]) = some [[5, 7]] :=
  ⟨⟨by decide, by decide, by decide⟩,
    load_paradigms_single_record_any_length _ (by decide) (by decide) (by decide)⟩

/-- C5 counterexample: the version string "2.4.1" contains a '.' and its
major component equals the current major component, yet
`_assert_format_is_compatible` raises (the two-variable unpacking of the
split fails on three pieces), refuting the claimed "error iff major differs
or no dot". -/
theorem format_version_three_components_counterexample :
    _assert_format_is_compatible ['2', '.', '4', '.', '1'] = Except.error "values to unpack" ∧
    '.' ∈ ['2', '.', '4', '.', '1'] ∧
    (pySplit '.' ['2', '.', '4', '.', '1']).headD [] =
      (pySplit '.' CURRENT_FORMAT_VERSION).headD [] :=
  ⟨rfl, by decide, by decide⟩

/-- C5 (amended): loading succeeds exactly when the format_version string
contains a '.', splits on '.' into exactly two components, and its first
(major) component equals the major component of `CURRENT_FORMAT_VERSION`;
equivalently an error is raised iff the string has no '.', or does not have
exactly one '.', or its major component differs.  A differing minor
component alone never causes an error. -/
theorem format_check_ok_iff (fv : List Char) :
    _assert_format_is_compatible fv = Except.ok () ↔
      ('.' ∈ fv ∧ (pySplit '.' fv).length = 2 ∧
        (pySplit '.' fv).headD [] = (pySplit '.' CURRENT_FORMAT_VERSION).headD []) := by
  have hc : pySplit '.' CURRENT_FORMAT_VERSION = [['2'], ['4']] := by decide
  unfold _assert_format_is_compatible
  by_cases h : '.' ∈ fv
  · rw [if_neg (not_not_intro h), hc]
    rcases hs : pySplit '.' fv with _ | ⟨a, _ | ⟨b, _ | ⟨c, tail⟩⟩⟩
    · simp [h, hs]
    · simp [h, hs]
    · by_cases hab : a = ['2']
      · simp [h, hs, hab, hc]
      · simp [h, hs, hab, hc]
    · simp [h, hs]
  · rw [if_pos h]
    simp [h]

/- ## stable descending sort: supporting lemmas -/

theorem mem_insertDesc {x p : _Parse} {l : List _Parse} :
    x ∈ insertDesc p l ↔ x = p ∨ x ∈ l := by
  induction l with
  | nil => simp [insertDesc]
  | cons q qs ih =>
    simp only [insertDesc]
    split
    · simp
    · simp only [List.mem_cons, ih]
      tauto

theorem insertDesc_perm (p : _Parse) (l : List _Parse) :
    (insertDesc p l).Perm (p :: l) := by
  induction l with
  | nil => simp [insertDesc]
  | cons q qs ih =>
    simp only [insertDesc]
    split
    · exact List.Perm.refl _
    · exact (List.Perm.cons q ih).trans (List.Perm.swap p q qs)

theorem insertDesc_sorted {p : _Parse} {l : List _Parse}
    (h : l.Pairwise fun a b => b.score ≤ a.score) :
    (insertDesc p l).Pairwise fun a b => b.score ≤ a.score := by
  induction l with
  | nil => simp [insertDesc]
  | cons q qs ih =>
    rcases List.pairwise_cons.mp h with ⟨hq, hqs⟩
    by_cases hlt : q.score < p.score
    · simp only [insertDesc, if_pos hlt]
      refine List.pairwise_cons.mpr ⟨?_, h⟩
      intro x hx
      rcases List.mem_cons.mp hx with rfl | hx2
      · exact le_of_lt hlt
      · exact le_trans (hq x hx2) (le_of_lt hlt)
    · simp only [insertDesc, if_neg hlt]
      refine List.pairwise_cons.mpr ⟨?_, ih hqs⟩
      intro x hx
      rcases mem_insertDesc.mp hx with rfl | hx2
      · exact not_lt.mp hlt
      · exact hq x hx2

theorem insertDesc_filter (p : _Parse) (c : ℚ) {l : List _Parse}
    (h : l.Pairwise fun a b => b.score ≤ a.score) :
    (insertDesc p l).filter (fun x => decide (x.score = c)) =
      l.filter (fun x => decide (x.score = c)) ++ if p.score = c then [p] else [] := by
  induction l with
  | nil => by_cases hp : p.score = c <;> simp [insertDesc, hp]
  | cons a as ih =>
    rcases List.pairwise_cons.mp h with ⟨ha, has⟩
    by_cases hlt : a.score < p.score
    · simp only [insertDesc, if_pos hlt]
      by_cases hp : p.score = c
      · have hnil : (a :: as).filter (fun x => decide (x.score = c)) = [] := by
          refine List.filter_eq_nil_iff.mpr ?_
          intro x hx
          have hxa : x.score ≤ a.score := by
            rcases List.mem_cons.mp hx with rfl | hx2
            · exact le_refl _
            · exact ha x hx2
          have : x.score ≠ c := by
            rw [← hp]
            exact ne_of_lt (lt_of_le_of_lt hxa hlt)
          simpa using this
        rw [hnil]
        simp [List.filter_cons, hp, hnil]
      · simp [List.filter_cons, hp]
    · simp only [insertDesc, if_neg hlt]
      by_cases hA : a.score = c <;> simp [List.filter_cons, hA, ih has]

theorem foldl_insertDesc_sorted (l acc : List _Parse)
    (h : acc.Pairwise fun a b => b.score ≤ a.score) :
    (l.foldl (fun a p => insertDesc p a) acc).Pairwise fun a b => b.score ≤ a.score := by
  induction l generalizing acc with
  | nil => simpa using h
  | cons p l ih =>
    simp only [List.foldl_cons]
    exact ih _ (insertDesc_sorted h)

theorem foldl_insertDesc_perm (l acc : List _Parse) :
    (l.foldl (fun a p => insertDesc p a) acc).Perm (acc ++ l) := by
  induction l generalizing acc with
  | nil => simp
  | cons p l ih =>
    simp only [List.foldl_cons]
    refine (ih (insertDesc p acc)).trans ?_
    refine (List.Perm.append_right l (insertDesc_perm p acc)).trans ?_
    exact List.perm_middle.symm

theorem foldl_insertDesc_filter (c : ℚ) (l acc : List _Parse)
    (h : acc.Pairwise fun a b => b.score ≤ a.score) :
    (l.foldl (fun a p => insertDesc p a) acc).filter (fun x => decide (x.score = c)) =
      acc.filter (fun x => decide (x.score = c)) ++ l.filter (fun x => decide (x.score = c)) := by
  induction l generalizing acc with
  | nil => simp
  | cons p l ih =>
    simp only [List.foldl_cons]
    rw [ih _ (insertDesc_sorted h), insertDesc_filter p c h]
    by_cases hp : p.score = c <;> simp [List.filter_cons, hp]

theorem pySortDesc_sorted (l : List _Parse) :
    (pySortDesc l).Pairwise fun a b => b.score ≤ a.score :=
  foldl_insertDesc_sorted l [] (by simp)

theorem pySortDesc_perm (l : List _Parse) : (pySortDesc l).Perm l := by
  simpa using foldl_insertDesc_perm l []

theorem pySortDesc_filter (c : ℚ) (l : List _Parse) :
    (pySortDesc l).filter (fun x => decide (x.score = c)) =
      l.filter (fun x => decide (x.score = c)) := by
  simpa using foldl_insertDesc_filter c l [] (by simp)

theorem zip_map_score (f : _Parse → ℚ) (ps : List _Parse) :
    ((ps.zip (ps.map f)).map fun pq => { pq.1 with score := pq.2 }) =
      ps.map fun p => { p with score := f p } := by
  induction ps with
  | nil => rfl
  | cons p ps ih => simp [ih]

/- ## claims C1, C9, C7 : the probability estimator -/

/-- C1 counterexample: on the non-empty parse list whose single parse has
score 0, with every probability absent, `apply_to_parses` does not return
the claimed normalized list in original order — the normalization constant
`1.0 / sum(scores)` divides by zero and the call raises (`none` in the
embedding). -/
theorem apply_to_parses_zero_sum_raises :
    zeroEstimator.apply_to_parses "a" "a" [zeroScoreParse] = none := by
  simp [ProbabilityEstimator.apply_to_parses, zeroEstimator, zeroScoreParse,
    ConditionalProbDistDAWG.prob, _score_getter]

/-- C1 (amended): for every non-empty parse list, with `p_i` the
probability of `(word_lower, tag_i)`: if all `p_i` are 0 and the original
scores have nonzero sum, the result keeps the original order with each
score replaced by `s_i / Σs_j` (when that sum is also 0 the call raises
instead); otherwise each score is replaced by `p_i` and the result is
sorted by score descending, keeping tied elements in input order (stated
as: a permutation of the rescored list, non-increasing in score, whose
sublist of parses at any fixed score equals that of the rescored list). -/
theorem apply_to_parses_correct (e : ProbabilityEstimator) (w wl : String)
    (ps : List _Parse) (hne : ps ≠ []) :
    (((ps.map fun p => e.p_t_given_w.prob wl p.tag).sum = 0 →
      (ps.map _score_getter).sum ≠ 0 →
      e.apply_to_parses w wl ps =
        some (ps.map fun p => { p with score := p.score / (ps.map _score_getter).sum }))) ∧
    ((ps.map fun p => e.p_t_given_w.prob wl p.tag).sum ≠ 0 →
      ∃ R, e.apply_to_parses w wl ps = some R ∧
        R.Perm (ps.map fun p => { p with score := e.p_t_given_w.prob wl p.tag }) ∧
        R.Pairwise (fun a b => b.score ≤ a.score) ∧
        ∀ c : ℚ, R.filter (fun x => decide (x.score = c)) =
          (ps.map fun p => { p with score := e.p_t_given_w.prob wl p.tag }).filter
            (fun x => decide (x.score = c))) := by
  have hem : ¬ (ps.isEmpty = true) := by simpa [List.isEmpty_iff] using hne
  constructor
  · intro hz hs
    simp only [ProbabilityEstimator.apply_to_parses]
    rw [if_neg hem, if_pos hz, if_neg hs]
    simp [one_div, div_eq_mul_inv]
  · intro hnz
    have happ : e.apply_to_parses w wl ps =
        some (pySortDesc (ps.map fun p => { p with score := e.p_t_given_w.prob wl p.tag })) := by
      simp only [ProbabilityEstimator.apply_to_parses]
      rw [if_neg hem, if_neg hnz, zip_map_score]
    exact ⟨_, happ, pySortDesc_perm _, pySortDesc_sorted _, fun c => pySortDesc_filter c _⟩

/-- Closed witness for C1's amended theorem: a single parse of score 1 with
probability 1 stored for its key takes the sorting branch. -/
theorem apply_to_parses_correct_witness :
    (([oneScoreParse] : List _Parse) ≠ [] ∧
      (([oneScoreParse] : List _Parse).map fun p =>
        fullProbEstimator.p_t_given_w.prob "a" p.tag).sum ≠ 0) ∧
    (∃ R, fullProbEstimator.apply_to_parses "a" "a" [oneScoreParse] = some R ∧
      R.Perm (([oneScoreParse] : List _Parse).map fun p =>
        { p with score := fullProbEstimator.p_t_given_w.prob "a" p.tag }) ∧
      R.Pairwise (fun a b => b.score ≤ a.score) ∧
      ∀ c : ℚ, R.filter (fun x => decide (x.score = c)) =
        (([oneScoreParse] : List _Parse).map fun p =>
          { p with score := fullProbEstimator.p_t_given_w.prob "a" p.tag }).filter
          (fun x => decide (x.score = c))) :=
  ⟨⟨by simp, by norm_num [fullProbEstimator, ConditionalProbDistDAWG.prob]⟩,
    (apply_to_parses_correct fullProbEstimator "a" "a" [oneScoreParse] (by simp)).2
      (by norm_num [fullProbEstimator, ConditionalProbDistDAWG.prob])⟩

/-- C9: `apply_to_parses` is not total at its public interface: the
non-empty parse list whose single parse has score 0 and whose probability
key is absent makes the normalization branch divide by zero and raise
(`none`); and the call succeeds whenever the scores have a nonzero sum if
all probabilities are 0. -/
theorem apply_to_parses_partiality :
    (zeroEstimator.apply_to_parses "a" "a" [zeroScoreParse] = none ∧
      ([zeroScoreParse] : List _Parse) ≠ []) ∧
    ∀ (e : ProbabilityEstimator) (w wl : String) (ps : List _Parse),
      ((ps.map fun p => e.p_t_given_w.prob wl p.tag).sum = 0 →
        (ps.map _score_getter).sum ≠ 0) →
      (e.apply_to_parses w wl ps).isSome = true := by
  constructor
  · constructor
    · simp [ProbabilityEstimator.apply_to_parses, zeroEstimator, zeroScoreParse,
        ConditionalProbDistDAWG.prob, _score_getter]
    · simp
  · intro e w wl ps h
    by_cases hem : ps.isEmpty = true
    · simp [ProbabilityEstimator.apply_to_parses, hem]
    · simp only [ProbabilityEstimator.apply_to_parses]
      rw [if_neg hem]
      by_cases hz : (ps.map fun p => e.p_t_given_w.prob wl p.tag).sum = 0
      · rw [if_pos hz, if_neg (h hz)]
        simp
      · rw [if_neg hz]
        simp

/-- Closed witness for the totality half of C9 at a concrete input whose
score sum is nonzero. -/
theorem apply_to_parses_partiality_witness :
    ((([oneScoreParse] : List _Parse).map fun p =>
        zeroEstimator.p_t_given_w.prob "a" p.tag).sum = 0 →
      (([oneScoreParse] : List _Parse).map _score_getter).sum ≠ 0) ∧
    (zeroEstimator.apply_to_parses "a" "a" [oneScoreParse]).isSome = true :=
  ⟨fun _ => by norm_num [_score_getter, oneScoreParse],
    apply_to_parses_partiality.2 zeroEstimator "a" "a" [oneScoreParse]
      (fun _ => by norm_num [_score_getter, oneScoreParse])⟩

/-- C7 counterexample: in the zero-probability normalization branch the
input order is preserved, so a parse list with ascending scores 1, 2 is
returned with ascending scores 1/3, 2/3 — not a non-increasing sequence. -/
theorem apply_to_parses_scores_increase_counterexample :
    zeroEstimator.apply_to_parses "a" "a" [oneScoreParse, twoScoreParse] =
      some [{ oneScoreParse with score := 1 / 3 }, { twoScoreParse with score := 2 / 3 }] ∧
    ¬ ([{ oneScoreParse with score := 1 / 3 }, { twoScoreParse with score := 2 / 3 }] :
        List _Parse).Pairwise (fun a b => b.score ≤ a.score) := by
  constructor
  · norm_num [ProbabilityEstimator.apply_to_parses, zeroEstimator, oneScoreParse,
      twoScoreParse, ConditionalProbDistDAWG.prob, _score_getter]
  · simp only [List.pairwise_cons, List.mem_cons]
    intro h
    have := h.1 _ (Or.inl rfl)
    norm_num [oneScoreParse, twoScoreParse] at this

/-- C7 (amended): when the parses' scores are non-negative, the `P(t|w)`
branch of `apply_to_parses` always returns scores forming a non-increasing
sequence; the zero-probability normalization branch preserves the input
order and rescales by the positive constant `1/Σs`, so its scores are
non-increasing exactly when the input scores already were. -/
theorem apply_to_parses_scores_nonincreasing (e : ProbabilityEstimator)
    (w wl : String) (ps : List _Parse) (hpos : ∀ p ∈ ps, 0 ≤ p.score) :
    (∀ R, (ps.map fun p => e.p_t_given_w.prob wl p.tag).sum ≠ 0 →
      e.apply_to_parses w wl ps = some R →
      R.Pairwise (fun a b => b.score ≤ a.score)) ∧
    ((ps.map fun p => e.p_t_given_w.prob wl p.tag).sum = 0 →
      ps.Pairwise (fun a b => b.score ≤ a.score) →
      ∀ R, e.apply_to_parses w wl ps = some R →
        R.Pairwise (fun a b => b.score ≤ a.score)) := by
  constructor
  · intro R hnz hR
    by_cases hem : ps.isEmpty = true
    · simp [ProbabilityEstimator.apply_to_parses, hem] at hR
      simp [hR]
    · simp only [ProbabilityEstimator.apply_to_parses] at hR
      rw [if_neg hem, if_neg hnz] at hR
      have := Option.some.inj hR
      rw [← this]
      exact pySortDesc_sorted _
  · intro hz hsorted R hR
    by_cases hem : ps.isEmpty = true
    · simp [ProbabilityEstimator.apply_to_parses, hem] at hR
      simp [hR]
    · simp only [ProbabilityEstimator.apply_to_parses] at hR
      rw [if_neg hem, if_pos hz] at hR
      by_cases hs : (ps.map _score_getter).sum = 0
      · rw [if_pos hs] at hR
        exact absurd hR (by simp)
      · rw [if_neg hs] at hR
        have hk : 0 ≤ 1 / (ps.map _score_getter).sum := by
          refine one_div_nonneg.mpr (List.sum_nonneg ?_)
          intro x hx
          rcases List.mem_map.mp hx with ⟨p, hp, rfl⟩
          exact hpos p hp
        have := Option.some.inj hR
        rw [← this, List.pairwise_map]
        exact hsorted.imp fun hab => mul_le_mul_of_nonneg_right hab hk

/-- Closed witness for C7's amended theorem: a single parse with a stored
probability takes the sorting branch and yields a (trivially)
non-increasing score list. -/
theorem apply_to_parses_scores_nonincreasing_witness :
    (∀ p ∈ ([oneScoreParse] : List _Parse), 0 ≤ p.score) ∧
    ((([oneScoreParse] : List _Parse).map fun p =>
      fullProbEstimator.p_t_given_w.prob "a" p.tag).sum ≠ 0) ∧
    fullProbEstimator.apply_to_parses "a" "a" [oneScoreParse] =
      some [{ oneScoreParse with score := 1 }] ∧
    ([{ oneScoreParse with score := 1 }] : List _Parse).Pairwise
      (fun a b => b.score ≤ a.score) :=
  ⟨by norm_num [oneScoreParse],
    by norm_num [fullProbEstimator, ConditionalProbDistDAWG.prob],
    by norm_num [ProbabilityEstimator.apply_to_parses, fullProbEstimator, oneScoreParse,
      ConditionalProbDistDAWG.prob, pySortDesc, insertDesc],
    (apply_to_parses_scores_nonincreasing fullProbEstimator "a" "a" [oneScoreParse]
        (by norm_num [oneScoreParse])).1 _
      (by norm_num [fullProbEstimator, ConditionalProbDistDAWG.prob])
      (by norm_num [ProbabilityEstimator.apply_to_parses, fullProbEstimator, oneScoreParse,
        ConditionalProbDistDAWG.prob, pySortDesc, insertDesc])⟩

/- ## claim C2 : terminal short-circuit of the unit pipeline -/

theorem runUnits_cons {σ : Type} (u : PipeUnit σ) (t : Bool)
    (rest : List (PipeUnit σ × Bool)) (w wl : String) (res : List _Parse) (s : σ) :
    runUnits ((u, t) :: rest) w wl res s =
      if t = true ∧ res ++ (u.parse w wl s).1 ≠ [] then res ++ (u.parse w wl s).1
      else runUnits rest w wl (res ++ (u.parse w wl s).1) (u.parse w wl s).2 := rfl

theorem runAllUnits_cons {σ : Type} (u : PipeUnit σ) (t : Bool)
    (rest : List (PipeUnit σ × Bool)) (w wl : String) (res : List _Parse) (s : σ) :
    runAllUnits ((u, t) :: rest) w wl res s =
      runAllUnits rest w wl (res ++ (u.parse w wl s).1) (u.parse w wl s).2 := rfl

theorem haltIdx_cons {σ : Type} (u : PipeUnit σ) (t : Bool)
    (rest : List (PipeUnit σ × Bool)) (w wl : String) (res : List _Parse) (s : σ) :
    haltIdx ((u, t) :: rest) w wl res s =
      if t = true ∧ res ++ (u.parse w wl s).1 ≠ [] then some 0
      else (haltIdx rest w wl (res ++ (u.parse w wl s).1) (u.parse w wl s).2).map (· + 1) :=
  rfl

theorem pipeline_halt_aux {σ : Type} (w wl : String) (units : List (PipeUnit σ × Bool)) :
    ∀ (res : List _Parse) (s : σ),
      (∀ k, haltIdx units w wl res s = some k →
        (units[k]?.map Prod.snd = some true ∧
         runAllUnits (units.take (k + 1)) w wl res s ≠ [] ∧
         (∀ j, j < k → ¬(units[j]?.map Prod.snd = some true ∧
            runAllUnits (units.take (j + 1)) w wl res s ≠ [])) ∧
         runUnits units w wl res s = runAllUnits (units.take (k + 1)) w wl res s ∧
         (∀ tail, runUnits (units.take (k + 1) ++ tail) w wl res s =
           runAllUnits (units.take (k + 1)) w wl res s))) ∧
      (haltIdx units w wl res s = none →
        (∀ j, ¬(units[j]?.map Prod.snd = some true ∧
           runAllUnits (units.take (j + 1)) w wl res s ≠ [])) ∧
        runUnits units w wl res s = runAllUnits units w wl res s) := by
  induction units with
  | nil =>
    intro res s
    constructor
    · intro k hk
      simp [haltIdx] at hk
    · intro _
      exact ⟨fun j => by simp, rfl⟩
  | cons ut rest ih =>
    obtain ⟨u, t⟩ := ut
    intro res s
    have ihr := ih (res ++ (u.parse w wl s).1) (u.parse w wl s).2
    by_cases hcond : (t = true ∧ res ++ (u.parse w wl s).1 ≠ [])
    · constructor
      · intro k hk
        rw [haltIdx_cons, if_pos hcond] at hk
        obtain rfl : k = 0 := (Option.some.inj hk).symm
        refine ⟨by simp [hcond.1], ?_, ?_, ?_, ?_⟩
        · simpa [runAllUnits_cons, runAllUnits] using hcond.2
        · intro j hj
          exact absurd hj (Nat.not_lt_zero j)
        · rw [runUnits_cons, if_pos hcond]
          simp [runAllUnits_cons, runAllUnits]
        · intro tail
          have h1 : ((u, t) :: rest).take (0 + 1) ++ tail = (u, t) :: tail := by simp
          rw [h1, runUnits_cons, if_pos hcond]
          simp [runAllUnits_cons, runAllUnits]
      · intro hk
        rw [haltIdx_cons, if_pos hcond] at hk
        exact absurd hk (by simp)
    · constructor
      · intro k hk
        rw [haltIdx_cons, if_neg hcond] at hk
        obtain ⟨k1, hk1, rfl⟩ := Option.map_eq_some'.mp hk
        have H := ihr.1 k1 hk1
        refine ⟨?_, ?_, ?_, ?_, ?_⟩
        · simpa [List.getElem?_cons_succ] using H.1
        · rw [List.take_succ_cons, runAllUnits_cons]
          exact H.2.1
        · intro j hj
          match j with
          | 0 =>
            intro hbad
            exact hcond (by simpa [runAllUnits_cons, runAllUnits] using hbad)
          | j1 + 1 =>
            have hj1 : j1 < k1 := by omega
            simpa [List.getElem?_cons_succ, List.take_succ_cons, runAllUnits_cons]
              using H.2.2.1 j1 hj1
        · rw [runUnits_cons, if_neg hcond, List.take_succ_cons, runAllUnits_cons]
          exact H.2.2.2.1
        · intro tail
          rw [List.take_succ_cons, List.cons_append, runUnits_cons, if_neg hcond,
            runAllUnits_cons]
          exact H.2.2.2.2 tail
      · intro hk
        rw [haltIdx_cons, if_neg hcond] at hk
        have H := ihr.2 (Option.map_eq_none'.mp hk)
        constructor
        · intro j
          match j with
          | 0 =>
            intro hbad
            exact hcond (by simpa [runAllUnits_cons, runAllUnits] using hbad)
          | j1 + 1 =>
            simpa [List.getElem?_cons_succ, List.take_succ_cons, runAllUnits_cons]
              using H.1 j1
        · rw [runUnits_cons, if_neg hcond, runAllUnits_cons]
          exact H.2

/-- C2: `MorphAnalyzer.parse` (with no estimator) returns exactly the
cumulative parse list of the unit loop; the loop halts exactly at the first
unit marked terminal after which the cumulative list is non-empty (that
unit is terminal, the cumulative list through it is non-empty, no earlier
unit satisfies both, the result is the cumulative list through that unit,
and any units placed after it are never invoked — replacing them by an
arbitrary tail does not change the result); when no unit satisfies the halt
condition, every unit runs. -/
theorem parse_pipeline_terminal_halt {σ : Type} (units : List (PipeUnit σ × Bool))
    (w : String) (s0 : σ) :
    (MorphAnalyzer.parse units s0 none w = some (runUnits units w w.toLower [] s0)) ∧
    (∀ k, haltIdx units w w.toLower [] s0 = some k →
      (units[k]?.map Prod.snd = some true ∧
       runAllUnits (units.take (k + 1)) w w.toLower [] s0 ≠ [] ∧
       (∀ j, j < k → ¬(units[j]?.map Prod.snd = some true ∧
          runAllUnits (units.take (j + 1)) w w.toLower [] s0 ≠ [])) ∧
       runUnits units w w.toLower [] s0 = runAllUnits (units.take (k + 1)) w w.toLower [] s0 ∧
       (∀ tail, runUnits (units.take (k + 1) ++ tail) w w.toLower [] s0 =
         runAllUnits (units.take (k + 1)) w w.toLower [] s0))) ∧
    (haltIdx units w w.toLower [] s0 = none →
      (∀ j, ¬(units[j]?.map Prod.snd = some true ∧
         runAllUnits (units.take (j + 1)) w w.toLower [] s0 ≠ [])) ∧
      runUnits units w w.toLower [] s0 = runAllUnits units w w.toLower [] s0) :=
  ⟨rfl, (pipeline_halt_aux w w.toLower units [] s0).1,
    (pipeline_halt_aux w w.toLower units [] s0).2⟩

/-- Closed witness for C2 on a concrete three-unit pipeline: the halt
happens at index 1 (the first terminal unit with non-empty cumulative
output), the result is the cumulative list through it, and replacing the
units after position 1 by another unit does not change the result. -/
theorem parse_pipeline_terminal_halt_witness :
    haltIdx smallPipeline "a" ("a".toLower) [] () = some 1 ∧
    (smallPipeline[1]?.map Prod.snd = some true ∧
      runAllUnits (smallPipeline.take 2) "a" ("a".toLower) [] () ≠ [] ∧
      runUnits smallPipeline "a" ("a".toLower) [] () =
        runAllUnits (smallPipeline.take 2) "a" ("a".toLower) [] () ∧
      runUnits (smallPipeline.take 2 ++ [(oneParseUnit, true)]) "a" ("a".toLower) [] () =
        runAllUnits (smallPipeline.take 2) "a" ("a".toLower) [] ()) :=
  have h := (parse_pipeline_terminal_halt smallPipeline "a" ()).2.1 1 (by decide)
  ⟨by decide, h.1, h.2.1, h.2.2.2.1, h.2.2.2.2 [(oneParseUnit, true)]⟩

/- ## claim C3 : inflection -/

theorem foldl_max_spec (key : _Parse → ℚ) :
    ∀ (xs : List _Parse) (x : _Parse),
      ∃ pre post,
        x :: xs = pre ++ (xs.foldl (fun b y => if key b < key y then y else b) x) :: post ∧
        (∀ z ∈ pre, key z < key (xs.foldl (fun b y => if key b < key y then y else b) x)) ∧
        ∀ z ∈ x :: xs, key z ≤ key (xs.foldl (fun b y => if key b < key y then y else b) x) := by
  intro xs
  induction xs with
  | nil =>
    intro x
    refine ⟨[], [], rfl, by simp, ?_⟩
    intro z hz
    rcases List.mem_singleton.mp hz with rfl
    exact le_refl _
  | cons y ys ih =>
    intro x
    by_cases hxy : key x < key y
    · obtain ⟨pre, post, hdec, hpre, hall⟩ := ih y
      have hstep : (y :: ys).foldl (fun b y => if key b < key y then y else b) x =
          ys.foldl (fun b y => if key b < key y then y else b) y := by
        simp [List.foldl_cons, if_pos hxy]
      set r := ys.foldl (fun b y => if key b < key y then y else b) y with hr
      have hyr : key y ≤ key r := hall y (by simp)
      refine ⟨x :: pre, post, ?_, ?_, ?_⟩
      · rw [hstep]
        simpa using hdec
      · intro z hz
        rw [hstep]
        rcases List.mem_cons.mp hz with rfl | hz2
        · exact lt_of_lt_of_le hxy hyr
        · exact hpre z hz2
      · intro z hz
        rw [hstep]
        rcases List.mem_cons.mp hz with rfl | hz2
        · exact le_of_lt (lt_of_lt_of_le hxy hyr)
        · exact hall z hz2
    · obtain ⟨pre, post, hdec, hpre, hall⟩ := ih x
      have hstep : (y :: ys).foldl (fun b y => if key b < key y then y else b) x =
          ys.foldl (fun b y => if key b < key y then y else b) x := by
        simp [List.foldl_cons, if_neg hxy]
      set r := ys.foldl (fun b y => if key b < key y then y else b) x with hr
      rcases pre with _ | ⟨p1, pre1⟩
      · have hx : x = r ∧ ys = post := by
          simpa using hdec
        refine ⟨[], y :: ys, ?_, by simp, ?_⟩
        · rw [hstep, ← hx.1]
          simp
        · intro z hz
          rw [hstep]
          rcases List.mem_cons.mp hz with rfl | hz2
          · exact le_of_eq (congrArg key hx.1)
          · rcases List.mem_cons.mp hz2 with rfl | hz3
            · exact le_trans (not_lt.mp hxy) (le_of_eq (congrArg key hx.1))
            · exact hall z (by simp [hz3])
      · have hx : p1 = x ∧ ys = pre1 ++ r :: post := by
          have := hdec
          rw [List.cons_append] at this
          exact ⟨(List.cons.injEq _ _ _ _ |>.mp this).1.symm,
            (List.cons.injEq _ _ _ _ |>.mp this).2⟩
        have hxr : key x < key r := by
          have := hpre p1 (by simp)
          rwa [hx.1] at this
        refine ⟨x :: y :: pre1, post, ?_, ?_, ?_⟩
        · rw [hstep]
          simp [hx.2]
        · intro z hz
          rw [hstep]
          rcases List.mem_cons.mp hz with rfl | hz2
          · exact hxr
          · rcases List.mem_cons.mp hz2 with rfl | hz3
            · exact lt_of_le_of_lt (not_lt.mp hxy) hxr
            · exact hpre z (by simp [hz3])
        · intro z hz
          rw [hstep]
          rcases List.mem_cons.mp hz with rfl | hz2
          · exact le_of_lt hxr
          · rcases List.mem_cons.mp hz2 with rfl | hz3
            · exact le_of_lt (lt_of_le_of_lt (not_lt.mp hxy) hxr)
            · exact hall z (List.mem_cons.mpr (Or.inr hz3))

theorem nlargest1_spec (key : _Parse → ℚ) (l : List _Parse) (hl : l ≠ []) :
    ∃ r, nlargest1 key l = [r] ∧ IsFirstArgmax key l r := by
  match l with
  | [] => exact absurd rfl hl
  | x :: xs =>
    obtain ⟨pre, post, hdec, hpre, hall⟩ := foldl_max_spec key xs x
    exact ⟨_, rfl, pre, post, hdec, hpre, hall⟩

/-- C3 (amended): for every lexeme enumeration, `fix_rare_cases`,
`updated_grammemes`, parse and required set R, `Parse.inflect` returns
`none` exactly when no lexeme form survives the superset filter in both
passes (the second pass retrying with `fix_rare_cases(R)`); every returned
parse is a survivor, so its grammemes contain the required set actually
used; and the returned parse is the first survivor maximizing
`|G ∩ T| − 0.1·|G △ T|` where `G = p.tag.updated_grammemes(R′)` with `R′`
the required set used by the successful filter pass (`fix_rare_cases(R)`
when the first pass found nothing, `R` otherwise), ties broken by input
order. -/
theorem inflect_first_argmax (gl : _Parse → List _Parse)
    (fx : Finset String → Finset String)
    (up : OpencorporaTag → Finset String → Finset String)
    (form : _Parse) (required : Finset String) :
    (Parse.inflect gl fx up form required = none ↔
      inflectSurvivors gl fx form required = []) ∧
    (∀ r, Parse.inflect gl fx up form required = some r →
      inflectReq gl fx form required ⊆ r.tag.grammemes) ∧
    (inflectSurvivors gl fx form required ≠ [] →
      ∃ r, Parse.inflect gl fx up form required = some r ∧
        IsFirstArgmax (inflectSim gl fx up form required)
          (inflectSurvivors gl fx form required) r) := by
  refine ⟨?_, ?_, ?_⟩
  · constructor
    · intro h
      rcases hs : inflectSurvivors gl fx form required with _ | ⟨x, xs⟩
      · rfl
      · obtain ⟨r2, hr2, _⟩ :=
          nlargest1_spec (inflectSim gl fx up form required) (x :: xs) (by simp)
        unfold Parse.inflect MorphAnalyzer._inflect at h
        rw [hs, hr2] at h
        exact absurd h (by simp)
    · intro hs
      unfold Parse.inflect MorphAnalyzer._inflect
      rw [hs]
      rfl
  · intro r hr
    rcases hs : inflectSurvivors gl fx form required with _ | ⟨x, xs⟩
    · unfold Parse.inflect MorphAnalyzer._inflect at hr
      rw [hs] at hr
      exact absurd hr (by simp [nlargest1])
    · obtain ⟨r2, hr2, pre, post, hdec, _, _⟩ :=
        nlargest1_spec (inflectSim gl fx up form required) (x :: xs) (by simp)
      unfold Parse.inflect MorphAnalyzer._inflect at hr
      rw [hs, hr2] at hr
      obtain rfl : r2 = r := by simpa using hr
      have hmem : r2 ∈ inflectSurvivors gl fx form required := by
        rw [hs, hdec]
        exact List.mem_append.mpr (Or.inr (by simp))
      have hf : r2 ∈ gl form ∧ inflectReq gl fx form required ⊆ r2.tag.grammemes := by
        simpa [inflectSurvivors, List.mem_filter] using hmem
      exact hf.2
  · intro hne
    obtain ⟨r, hr, hspec⟩ := nlargest1_spec (inflectSim gl fx up form required)
      (inflectSurvivors gl fx form required) hne
    refine ⟨r, ?_, hspec⟩
    unfold Parse.inflect MorphAnalyzer._inflect
    rw [hr]

/-- Closed witness for C3's amended theorem at a concrete lexeme. -/
theorem inflect_first_argmax_witness :
    inflectSurvivors cLex cFix lexForm1 {"x"} ≠ [] ∧
    (∃ r, Parse.inflect cLex cFix cUpd lexForm1 {"x"} = some r ∧
      IsFirstArgmax (inflectSim cLex cFix cUpd lexForm1 {"x"})
        (inflectSurvivors cLex cFix lexForm1 {"x"}) r) :=
  ⟨by decide, (inflect_first_argmax cLex cFix cUpd lexForm1 {"x"}).2.2 (by decide)⟩

/-- C3 counterexample: with a lexeme of two forms, a `fix_rare_cases`
collapsing the unsatisfiable requirement {"x"} to ∅ and an
`updated_grammemes` that depends on the requirement it receives, the code
(which computes G from the retried requirement) returns the second form,
even though under the claim's `G = p.tag.updated_grammemes(R)` (original R)
the surviving first form has strictly larger similarity — so the returned
parse does not maximize the claim's similarity. -/
theorem inflect_uses_fixed_requirement_counterexample :
    Parse.inflect cLex cFix cUpd lexForm1 {"x"} = some lexForm2 ∧
    lexForm1 ∈ inflectSurvivors cLex cFix lexForm1 {"x"} ∧
    ((cUpd lexForm1.tag {"x"} ∩ lexForm2.tag.grammemes).card : ℚ) -
        (1 / 10) * (((cUpd lexForm1.tag {"x"} \ lexForm2.tag.grammemes) ∪
          (lexForm2.tag.grammemes \ cUpd lexForm1.tag {"x"})).card : ℚ) <
      ((cUpd lexForm1.tag {"x"} ∩ lexForm1.tag.grammemes).card : ℚ) -
        (1 / 10) * (((cUpd lexForm1.tag {"x"} \ lexForm1.tag.grammemes) ∪
          (lexForm1.tag.grammemes \ cUpd lexForm1.tag {"x"})).card : ℚ) := by
  have hsurv : inflectSurvivors cLex cFix lexForm1 ({"x"} : Finset String) =
      [lexForm1, lexForm2] := by decide
  have hreq : inflectReq cLex cFix lexForm1 ({"x"} : Finset String) = ∅ := by decide
  have n1 : (({"b"} : Finset String) ∩ {"a"}).card = 0 := by decide
  have n2 : ((({"b"} : Finset String) \ {"a"}) ∪ ({"a"} \ {"b"})).card = 2 := by decide
  have n3 : (({"b"} : Finset String) ∩ {"b"}).card = 1 := by decide
  have n4 : ((({"b"} : Finset String) \ {"b"}) ∪ ({"b"} \ {"b"})).card = 0 := by decide
  have hupd : cUpd lexForm1.tag (inflectReq cLex cFix lexForm1 ({"x"} : Finset String)) =
      {"b"} := by decide
  have hg1 : lexForm1.tag.grammemes = ({"a"} : Finset String) := rfl
  have hg2 : lexForm2.tag.grammemes = ({"b"} : Finset String) := rfl
  have hlt : inflectSim cLex cFix cUpd lexForm1 {"x"} lexForm1 <
      inflectSim cLex cFix cUpd lexForm1 {"x"} lexForm2 := by
    simp only [inflectSim, hupd, hg1, hg2]
    rw [n1, n2, n3, n4]
    norm_num
  refine ⟨?_, ?_, ?_⟩
  · have hn : nlargest1 (inflectSim cLex cFix cUpd lexForm1 {"x"})
        [lexForm1, lexForm2] = [lexForm2] := by
      simp [nlargest1, List.foldl_cons, if_pos hlt]
    unfold Parse.inflect MorphAnalyzer._inflect
    rw [hsurv, hn]
  · rw [hsurv]
    simp
  · have hux : cUpd lexForm1.tag ({"x"} : Finset String) = {"a"} := by decide
    have m1 : (({"a"} : Finset String) ∩ {"b"}).card = 0 := by decide
    have m2 : ((({"a"} : Finset String) \ {"b"}) ∪ ({"b"} \ {"a"})).card = 2 := by decide
    have m3 : (({"a"} : Finset String) ∩ {"a"}).card = 1 := by decide
    have m4 : ((({"a"} : Finset String) \ {"a"}) ∪ ({"a"} \ {"a"})).card = 0 := by decide
    simp only [hux, hg1, hg2]
    rw [m1, m2, m3, m4]
    norm_num

/- ## claim C4 : word_is_known -/

theorem mem_charAlts {m : List (Char × Char)} {c a : Char} :
    a ∈ charAlts m c ↔ a = c ∨ (c, a) ∈ m := by
  constructor
  · intro ha
    rcases List.mem_cons.mp ha with rfl | h2
    · exact Or.inl rfl
    · obtain ⟨pr, hpr, rfl⟩ := List.mem_map.mp h2
      have hm := List.mem_filter.mp hpr
      have heq : pr.1 = c := of_decide_eq_true hm.2
      refine Or.inr ?_
      rw [← heq]
      simpa [Prod.mk.eta] using hm.1
  · intro h
    rcases h with rfl | hmem
    · exact List.mem_cons_self _ _
    · refine List.mem_cons.mpr (Or.inr ?_)
      refine List.mem_map.mpr ⟨(c, a), ?_, rfl⟩
      exact List.mem_filter.mpr ⟨hmem, by simp⟩

theorem mem_substVariants (m : List (Char × Char)) :
    ∀ (cs v : List Char),
      v ∈ substVariants m cs ↔ List.Forall₂ (fun c d => d = c ∨ (c, d) ∈ m) cs v := by
  intro cs
  induction cs with
  | nil =>
    intro v
    simp [substVariants, List.forall₂_nil_left_iff, eq_comm]
  | cons c cs ih =>
    intro v
    simp only [substVariants, List.mem_flatMap, List.mem_map]
    constructor
    · rintro ⟨a, ha, v1, hv1, rfl⟩
      exact List.Forall₂.cons (mem_charAlts.mp ha) ((ih v1).mp hv1)
    · intro hf
      rcases v with _ | ⟨a, v1⟩
      · simp at hf
      · obtain ⟨hca, htail⟩ := List.forall₂_cons.mp hf
        exact ⟨a, mem_charAlts.mpr hca, v1, (ih v1).mpr htail, rfl⟩

/-- C4: `MorphAnalyzer.word_is_known(w, strict=True)` holds iff
`w.lower()` is an exact key of the words DAWG, and with `strict=False` it
holds iff some key reachable from `w.lower()` by applying the compiled
character substitutions (any subset of positions rewritten by the map) is
present; the analyzer always lowercases before the dictionary lookup. -/
theorem word_is_known_characterization (words : List String)
    (replaces : List (Char × Char)) (w : String) :
    (MorphAnalyzer.word_is_known words replaces w true = true ↔ w.toLower ∈ words) ∧
    (MorphAnalyzer.word_is_known words replaces w false = true ↔
      ∃ v : List Char,
        List.Forall₂ (fun c d => d = c ∨ (c, d) ∈ replaces) w.toLower.data v ∧
        String.mk v ∈ words) := by
  constructor
  · simp [MorphAnalyzer.word_is_known, Dictionary.word_is_known]
  · simp only [MorphAnalyzer.word_is_known, Dictionary.word_is_known, if_neg,
      Bool.false_eq_true, ite_false, List.any_eq_true]
    constructor
    · rintro ⟨v, hv, hc⟩
      exact ⟨v, (mem_substVariants replaces _ v).mp hv, by simpa using hc⟩
    · rintro ⟨v, hf, hm⟩
      exact ⟨v, (mem_substVariants replaces _ v).mpr hf, by simpa using hm⟩

/- ## claim C10 : normal_forms -/

theorem firstDedup_subset (x : String) : ∀ l, x ∈ firstDedup l → x ∈ l := by
  intro l
  induction l using firstDedup.induct with
  | case1 => simp [firstDedup]
  | case2 a l ih =>
    intro h
    rw [firstDedup] at h
    rcases List.mem_cons.mp h with rfl | h2
    · simp
    · have := List.mem_filter.mp (ih h2)
      simp [this.1]

theorem firstDedup_nodup : ∀ l : List String, (firstDedup l).Nodup := by
  intro l
  induction l using firstDedup.induct with
  | case1 => simp [firstDedup]
  | case2 a l ih =>
    rw [firstDedup]
    refine List.nodup_cons.mpr ⟨?_, ih⟩
    intro hmem
    have := List.mem_filter.mp (firstDedup_subset a _ hmem)
    simp at this

theorem normalFormsLoop_firstDedup : ∀ (ps : List _Parse) (seen : List String),
    normalFormsLoop ps seen =
      firstDedup ((ps.map _Parse.normal_for).filter fun b => decide (b ∉ seen)) := by
  intro ps
  induction ps with
  | nil => intro seen; simp [normalFormsLoop, firstDedup]
  | cons p ps ih =>
    intro seen
    by_cases h : p.normal_for ∈ seen
    · simp only [normalFormsLoop, if_pos h, List.map_cons, List.filter_cons]
      rw [ih]
      simp [h]
    · simp only [normalFormsLoop, if_neg h, List.map_cons, List.filter_cons]
      rw [ih, if_pos (by simpa using h), firstDedup, List.filter_filter]
      congr 2
      refine List.filter_congr ?_
      intro x _
      by_cases hx1 : x = p.normal_for <;> by_cases hx2 : x ∈ seen <;> simp [hx1, hx2]

/-- C10: `MorphAnalyzer.normal_forms` returns the normal form of each parse
of `self.parse(word)` with duplicates removed, keeping only the first
occurrence and preserving the order of first appearance (the
specification-side `firstDedup`); every element of the returned list is
distinct. -/
theorem normal_forms_first_dedup {σ : Type} (units : List (PipeUnit σ × Bool))
    (seen0 : σ) (prob_estimator : Option ProbabilityEstimator) (word : String) :
    MorphAnalyzer.normal_forms units seen0 prob_estimator word =
      (MorphAnalyzer.parse units seen0 prob_estimator word).map
        (fun ps => firstDedup (ps.map _Parse.normal_for)) ∧
    ∀ l : List String, (firstDedup l).Nodup := by
  constructor
  · unfold MorphAnalyzer.normal_forms
    cases MorphAnalyzer.parse units seen0 prob_estimator word with
    | none => rfl
    | some ps =>
      simp only [Option.map_some']
      congr 1
      have h := normalFormsLoop_firstDedup ps []
      simpa using h
  · exact firstDedup_nodup
